import Mathlib

/-!
Verification of the `diff` package's binary delta matcher, text handler and
directory-comparison orchestrator.

The Go sources are shallowly embedded:
* byte buffers (`[]byte`) become `List Byte` with `Byte := Fin 256`;
* `int`/`int64` offsets and lengths become `ℤ` (they are exact in Go for all
  reachable values; the 32-bit rolling-hash accumulator wraps and is modelled
  with an explicit `% 2^32`);
* Go slice expressions `buf[a:b]` panic when `0 ≤ a ≤ b ≤ len buf` fails, so
  every function that slices returns an `Option`, `none` marking the panic;
* `float64` quantities become exact values: ratios are `ℚ`, the Shannon
  entropy is the real number it approximates.  The two entropy threshold
  tests of `OptimizeBinaryDiff` are rendered as exact integer comparisons
  (`entropyGtB`) which are proved equivalent to the corresponding comparisons
  of the real entropy (`entropyGtB_iff`), keeping the comparison pipeline
  executable.
-/

set_option exponentiation.threshold 200000

namespace Diff

/-- A Go byte. -/
abbrev Byte := Fin 256

/-- `DiffChunk` from models.go: one change unit of a comparison. -/
structure DiffChunk where
  Offset : ℤ
  OldData : List Byte
  NewData : List Byte
  ChunkType : String
deriving DecidableEq, Repr

/-- `binaryMatch` from binary.go: a claimed equal region between the buffers. -/
structure binaryMatch where
  OldOffset : ℤ
  NewOffset : ℤ
  Length : ℤ
deriving DecidableEq, Repr

/-- `BinaryDiffStats` from binary.go.  The three `float64` fields are modelled
exactly: the two ratios as rationals, the entropy as the real number the Go
code approximates. -/
structure BinaryDiffStats where
  MatchCount : ℕ
  TotalMatchedBytes : ℤ
  LargestMatch : ℤ
  SmallestMatch : ℤ
  AverageMatchSize : ℚ
  ChunkCount : ℕ
  CompressionRatio : ℚ
  Entropy : ℝ

/-- `GenericBinaryHandler` from binary.go.  The `Stats` pointer field is
modelled by value (Go allocates a fresh struct on every update). -/
structure GenericBinaryHandler where
  MinMatchLength : ℕ
  MaxGapSize : ℕ
  ChunkSize : ℕ
  Stats : BinaryDiffStats

/-- The zero value of `BinaryDiffStats` (Go `&BinaryDiffStats{}`). -/
def zeroStats : BinaryDiffStats :=
  { MatchCount := 0, TotalMatchedBytes := 0, LargestMatch := 0, SmallestMatch := 0,
    AverageMatchSize := 0, ChunkCount := 0, CompressionRatio := 0, Entropy := 0 }

/-- `NewGenericBinaryHandler` from binary.go. -/
def NewGenericBinaryHandler : GenericBinaryHandler :=
  { MinMatchLength := 8, MaxGapSize := 1024, ChunkSize := 4096, Stats := zeroStats }

/-- `rollingHash` from binary.go: returns 0 when fewer than `window` bytes are
available, otherwise folds `hash = hash<<1 + b` over the first `window` bytes
in a wrapping 32-bit accumulator. -/
def rollingHash (data : List Byte) (window : ℕ) : ℕ :=
  if data.length < window then 0
  else (data.take window).foldl (fun h b => (2 * h + b.val) % 2 ^ 32) 0

/-- `extendMatch` from binary.go: the length of the longest common prefix of
the two buffers (the Go loop walks while bytes agree, bounded by the shorter
buffer). -/
def extendMatch : List Byte → List Byte → ℕ
  | a :: as, b :: bs => if a = b then extendMatch as bs + 1 else 0
  | _, _ => 0

/-- The aligned window start offsets `0, mml, 2*mml, …` that the hash-table
construction loop of `findMatches` visits (`i <= len(old)-mml; i += mml`).
For `mml = 0` the Go loop would not terminate; no caller passes 0. -/
def strideIndices (n mml : ℕ) : List ℕ :=
  if mml = 0 ∨ n < mml then []
  else (List.range ((n - mml) / mml + 1)).map (· * mml)

/-- The candidate list `hashTable[v]` of `findMatches`: window start offsets of
`old` whose rolling hash is `v`, in insertion (ascending) order.  A hash with
no offsets is absent from the Go map, which behaves like the empty list here. -/
def candidates (old : List Byte) (mml : ℕ) (v : ℕ) : List ℕ :=
  (strideIndices old.length mml).filter (fun i => rollingHash (old.drop i) mml = v)

/-- The candidate loop at one scan position of `findMatches`: look up the
window's hash and return the first candidate old offset whose verified
byte-by-byte extension reaches `mml` bytes, together with that length. -/
def scanStep (old new : List Byte) (mml i : ℕ) : Option (ℕ × ℕ) :=
  (candidates old mml (rollingHash (new.drop i) mml)).findSome? (fun pos =>
    let len := extendMatch (old.drop pos) (new.drop i)
    if mml ≤ len then some (pos, len) else none)

/-- The scan loop of `findMatches` over the new buffer: at stride `mml`,
record the match found by `scanStep` (if any) and jump `i += matchLen - 1`
(plus the loop increment `mml`).  Structured as fuel recursion;
`new.length + 1` units of fuel are enough for every positive `mml`, matching
the Go loop. -/
def scanLoop (old new : List Byte) (mml : ℕ) : ℕ → ℕ → List binaryMatch
  | 0, _ => []
  | fuel + 1, i =>
    if i + mml ≤ new.length then
      match scanStep old new mml i with
      | some (pos, len) =>
          ⟨(pos : ℤ), (i : ℤ), (len : ℤ)⟩ :: scanLoop old new mml fuel (i + len - 1 + mml)
      | none => scanLoop old new mml fuel (i + mml)
    else []

/-- The merge loop of `mergeAdjacentMatches`: `current` is the pending match;
when both the old-side and new-side gaps to `next` are at most `maxGap`, the
pending match's length is stretched to `next`'s end in new-buffer coordinates
(without re-verifying the bridged bytes), otherwise the pending match is
emitted. -/
def mergeLoop (maxGap : ℕ) : binaryMatch → List binaryMatch → List binaryMatch
  | current, [] => [current]
  | current, next :: rest =>
    let gapOld := next.OldOffset - (current.OldOffset + current.Length)
    let gapNew := next.NewOffset - (current.NewOffset + current.Length)
    if gapOld ≤ (maxGap : ℤ) ∧ gapNew ≤ (maxGap : ℤ) then
      mergeLoop maxGap { current with Length := next.NewOffset + next.Length - current.NewOffset } rest
    else
      current :: mergeLoop maxGap next rest

/-- `mergeAdjacentMatches` from binary.go.  Lists of fewer than two matches
are returned unchanged (which `mergeLoop` also does for a singleton). -/
def mergeAdjacentMatches (maxGap : ℕ) : List binaryMatch → List binaryMatch
  | [] => []
  | m :: rest => mergeLoop maxGap m rest

/-- `findMatches` from binary.go: empty result for an empty buffer, otherwise
the hash-guided scan followed by gap merging. -/
def findMatches (h : GenericBinaryHandler) (old new : List Byte) : List binaryMatch :=
  if old = [] ∨ new = [] then []
  else mergeAdjacentMatches h.MaxGapSize
    (scanLoop old new h.MinMatchLength (new.length + 1) 0)

/-- A Go slice expression `l[a:b]`: `none` models the runtime panic raised
when `0 ≤ a ≤ b ≤ len l` does not hold. -/
def goSlice (l : List Byte) (a b : ℤ) : Option (List Byte) :=
  if 0 ≤ a ∧ a ≤ b ∧ b ≤ (l.length : ℤ) then
    some ((l.drop a.toNat).take (b - a).toNat)
  else none

/-- The chunk-emission loop of `Compare`: walks the match list keeping
`lastOldEnd`/`lastNewEnd`, emits one chunk per gap on the new side, and a
trailing chunk for any remainder of the new buffer.  `none` models a slice
panic. -/
def buildChunks (old new : List Byte) : List binaryMatch → ℤ → ℤ → Option (List DiffChunk)
  | [], lastOldEnd, lastNewEnd =>
    if lastNewEnd < (new.length : ℤ) then do
      let od ← goSlice old lastOldEnd old.length
      let nd ← goSlice new lastNewEnd new.length
      pure [⟨lastOldEnd, od, nd, "binary"⟩]
    else pure []
  | m :: rest, lastOldEnd, lastNewEnd =>
    if lastNewEnd < m.NewOffset then do
      let od ← goSlice old lastOldEnd m.OldOffset
      let nd ← goSlice new lastNewEnd m.NewOffset
      let cs ← buildChunks old new rest (m.OldOffset + m.Length) (m.NewOffset + m.Length)
      pure (⟨lastOldEnd, od, nd, "binary"⟩ :: cs)
    else buildChunks old new rest (m.OldOffset + m.Length) (m.NewOffset + m.Length)

/-- `calculateEntropy` from binary.go: 0 for an empty buffer, otherwise the
Shannon entropy of the byte-frequency distribution divided by 8.  The Go
`float64` value is modelled by the exact real it approximates; the frequency
map ranges over the bytes that occur, i.e. over `data.toFinset`. -/
noncomputable def calculateEntropy (data : List Byte) : ℝ :=
  if data.length = 0 then 0
  else
    -(∑ b in data.toFinset,
        ((data.count b : ℝ) / data.length) * Real.logb 2 ((data.count b : ℝ) / data.length)) / 8

/-- Decides `num / den < calculateEntropy data` by exact integer arithmetic
(`entropyGtB_iff` below proves the equivalence).  This renders the Go
comparisons `entropy > 0.8` / `entropy > 0.5` executably. -/
def entropyGtB (data : List Byte) (num den : ℕ) : Bool :=
  decide (2 ^ (8 * num * data.length) *
      ∏ b in data.toFinset, data.count b ^ (den * data.count b)
    < data.length ^ (den * data.length))

/-- `OptimizeBinaryDiff` from binary.go: retunes `MinMatchLength`, `MaxGapSize`
and `ChunkSize` from the sample's entropy, then applies the size-based
adjustments for buffers over 10 MiB / 1 MiB.  The entropy threshold tests are
the exact renderings of `entropy > 0.8` and `entropy > 0.5`. -/
def OptimizeBinaryDiff (h : GenericBinaryHandler) (sampleData : List Byte) :
    GenericBinaryHandler :=
  let base :=
    if entropyGtB sampleData 4 5 then
      { h with MinMatchLength := 16, MaxGapSize := 256, ChunkSize := 8192 }
    else if entropyGtB sampleData 1 2 then
      { h with MinMatchLength := 8, MaxGapSize := 1024, ChunkSize := 4096 }
    else
      { h with MinMatchLength := 4, MaxGapSize := 2048, ChunkSize := 2048 }
  if 10 * 1024 * 1024 < sampleData.length then
    { base with ChunkSize := base.ChunkSize * 4, MinMatchLength := base.MinMatchLength + 8 }
  else if 1024 * 1024 < sampleData.length then
    { base with ChunkSize := base.ChunkSize * 2, MinMatchLength := base.MinMatchLength + 4 }
  else base

/-- `AnalyzeBinaryDiff` from binary.go.  The Go function's error result is
always `nil`, so it is modelled as total.  With no matches it returns the
partially initialised stats (`SmallestMatch` primed with `MinMatchLength`,
`CompressionRatio` 1 by convention, entropy left at its zero value);
otherwise one pass accumulates total/largest/smallest and the two ratios. -/
noncomputable def AnalyzeBinaryDiff (h : GenericBinaryHandler) (old new : List Byte) :
    BinaryDiffStats :=
  let ms := findMatches h old new
  if ms = [] then
    { zeroStats with
      MatchCount := 0,
      SmallestMatch := (h.MinMatchLength : ℤ),
      CompressionRatio := 1 }
  else
    let total := (ms.map (·.Length)).sum
    { MatchCount := ms.length,
      TotalMatchedBytes := total,
      LargestMatch := ms.foldl (fun acc m => if acc < m.Length then m.Length else acc) 0,
      SmallestMatch :=
        ms.foldl (fun acc m => if m.Length < acc then m.Length else acc) (h.MinMatchLength : ℤ),
      AverageMatchSize := (total : ℚ) / (ms.length : ℚ),
      ChunkCount := 0,
      CompressionRatio := (new.length : ℚ) / (total : ℚ),
      Entropy := calculateEntropy new }

namespace GenericBinaryHandler

/-- The chunk list returned by `Compare` from binary.go: `nil` for equal
buffers, otherwise the complements of the (optimised, merged) match list.
`none` models a slice panic.  (`AnalyzeBinaryDiff` runs after the chunks are
built and never errors, so it cannot change the returned chunks; the
receiver's mutation is `compareAfter` below.) -/
def Compare (h : GenericBinaryHandler) (old new : List Byte) : Option (List DiffChunk) :=
  if old = new then some []
  else
    let h1 := OptimizeBinaryDiff h new
    buildChunks old new (findMatches h1 old new) 0 0

/-- The receiver state after `Compare` from binary.go: untouched on the early
equal-buffers return; otherwise the parameters are retuned by
`OptimizeBinaryDiff` and, when no slice panic interrupts the call, `Stats` is
replaced by the freshly analysed stats with `ChunkCount` and `Entropy`
filled in. -/
noncomputable def compareAfter (h : GenericBinaryHandler) (old new : List Byte) :
    GenericBinaryHandler :=
  if old = new then h
  else
    let h1 := OptimizeBinaryDiff h new
    match buildChunks old new (findMatches h1 old new) 0 0 with
    | none => h1
    | some cs =>
      { h1 with Stats :=
          { AnalyzeBinaryDiff h1 old new with
              ChunkCount := cs.length, Entropy := calculateEntropy new } }

/-- `GetLatestStats` from binary.go. -/
def GetLatestStats (h : GenericBinaryHandler) : BinaryDiffStats := h.Stats

/-- `GetFileType` from binary.go. -/
def GetFileType : String := "binary"

/-- The chunk-replay loop of `Patch` from binary.go: copy the unchanged bytes
before each chunk (only when `chunk.Offset > lastOffset`), append the chunk's
new data, skip `len(chunk.OldData)` old bytes, and copy the tail. -/
def patchLoop (original : List Byte) : List DiffChunk → ℤ → Option (List Byte)
  | [], lastOffset =>
    if lastOffset < (original.length : ℤ) then goSlice original lastOffset original.length
    else some []
  | c :: cs, lastOffset => do
    let pre ← if lastOffset < c.Offset then goSlice original lastOffset c.Offset else some []
    let rest ← patchLoop original cs (c.Offset + c.OldData.length)
    pure (pre ++ c.NewData ++ rest)

/-- `Patch` from binary.go: the original buffer for an empty chunk list,
otherwise the offset-driven replay.  `none` models a slice panic. -/
def Patch (original : List Byte) (chunks : List DiffChunk) : Option (List Byte) :=
  if chunks = [] then some original
  else patchLoop original chunks 0

end GenericBinaryHandler

namespace TextFileHandler

/-- `bytes.Split(l, []byte{'\n'})`: the (possibly empty) segments of `l`
between line-feed bytes; the empty buffer yields one empty line. -/
def splitLines : List Byte → List (List Byte)
  | [] => [[]]
  | b :: bs =>
    if b = (10 : Byte) then [] :: splitLines bs
    else
      match splitLines bs with
      | t :: ts => (b :: t) :: ts
      | [] => [[b]]

/-- The line loop of `TextFileHandler.Compare` from text.go: index-aligned
comparison up to the shorter line count, emitting one chunk per differing
line at the line's cumulative byte offset in the old buffer. -/
def compareLoop : List (List Byte) → List (List Byte) → ℤ → List DiffChunk
  | o :: os, n :: ns, offset =>
    (if o = n then [] else [⟨offset, o, n, "text"⟩]) ++
      compareLoop os ns (offset + o.length + 1)
  | _, _, _ => []

/-- `TextFileHandler.Compare` from text.go (never returns an error). -/
def Compare (old new : List Byte) : List DiffChunk :=
  if old = new then []
  else compareLoop (splitLines old) (splitLines new) 0

/-- The replay loop of `TextFileHandler.Patch` from text.go: unlike the binary
replay, the copy of `original[lastOffset:chunk.Offset]` is unguarded. -/
def patchLoop (original : List Byte) : List DiffChunk → ℤ → Option (List Byte)
  | [], lastOffset =>
    if lastOffset < (original.length : ℤ) then goSlice original lastOffset original.length
    else some []
  | c :: cs, lastOffset => do
    let pre ← goSlice original lastOffset c.Offset
    let rest ← patchLoop original cs (c.Offset + c.OldData.length)
    pure (pre ++ c.NewData ++ rest)

/-- `TextFileHandler.Patch` from text.go. -/
def Patch (original : List Byte) (chunks : List DiffChunk) : Option (List Byte) :=
  if chunks = [] then some original
  else patchLoop original chunks 0

/-- `TextFileHandler.GetFileType` from text.go. -/
def GetFileType : String := "text"

end TextFileHandler

/-! ### Basic lemmas about the chunk builders -/

/-- Every chunk emitted by the binary chunk builder carries the tag "binary". -/
lemma buildChunks_chunkType (old new : List Byte) :
    ∀ (ms : List binaryMatch) (a b : ℤ) (cs : List DiffChunk) (c : DiffChunk),
      buildChunks old new ms a b = some cs → c ∈ cs → c.ChunkType = "binary" := by
  intro ms
  induction ms with
  | nil =>
    intro a b cs c h hc
    simp only [buildChunks] at h
    split at h
    · simp only [bind, Option.bind_eq_some] at h
      obtain ⟨od, -, nd, -, h⟩ := h
      obtain rfl : [⟨a, od, nd, "binary"⟩] = cs := by simpa using h
      obtain rfl : c = ⟨a, od, nd, "binary"⟩ := by simpa using hc
      rfl
    · obtain rfl : ([] : List DiffChunk) = cs := by simpa using h
      simp at hc
  | cons m rest ih =>
    intro a b cs c h hc
    simp only [buildChunks] at h
    split at h
    · simp only [bind, Option.bind_eq_some] at h
      obtain ⟨od, -, nd, -, cs', hcs', h⟩ := h
      obtain rfl : (⟨a, od, nd, "binary"⟩ : DiffChunk) :: cs' = cs := by simpa using h
      rcases List.mem_cons.1 hc with rfl | hmem
      · rfl
      · exact ih _ _ _ _ hcs' hmem
    · exact ih _ _ _ _ h hc

/-- Every chunk emitted by the text comparison loop carries the tag "text". -/
lemma compareLoop_chunkType :
    ∀ (os ns : List (List Byte)) (off : ℤ) (c : DiffChunk),
      c ∈ TextFileHandler.compareLoop os ns off → c.ChunkType = "text" := by
  intro os
  induction os with
  | nil =>
    intro ns off c hc
    cases ns <;> simp [TextFileHandler.compareLoop] at hc
  | cons o os ih =>
    intro ns off c hc
    cases ns with
    | nil => simp [TextFileHandler.compareLoop] at hc
    | cons n ns' =>
      simp only [TextFileHandler.compareLoop, List.mem_append] at hc
      rcases hc with hc | hc
      · split at hc
        · simp at hc
        · obtain rfl : c = ⟨off, o, n, "text"⟩ := by simpa using hc
          rfl
      · exact ih _ _ _ hc

/-! ### Concrete buffers used to evaluate the code at its failing inputs -/

/-- Old buffer of the gap-merge round-trip failure: two genuinely matching
regions (bytes 0–4 and 8–11) separated by a 3-byte gap that differs between
the buffers. -/
def mergeOld : List Byte := [1, 2, 3, 4, 5, 9, 9, 9, 6, 7, 2, 3]

/-- New buffer of the gap-merge round-trip failure; differs from `mergeOld`
exactly at offsets 5–7. -/
def mergeNew : List Byte := [1, 2, 3, 4, 5, 8, 8, 8, 6, 7, 2, 3]

/-- The bytes of "hello world". -/
def helloWorld : List Byte := [104, 101, 108, 108, 111, 32, 119, 111, 114, 108, 100]

/-! ### Claim C1 -/

/-- C1: the round-trip property `Patch(old, Compare(old, new)) = new` FAILS on
the code.  At `mergeOld`/`mergeNew` the scan finds the two genuine matches
`(0,0,5)` and `(8,8,4)`; both the old-side and new-side gaps are 3 ≤
`MaxGapSize`, so `mergeAdjacentMatches` fuses them into a single match of
length 12 without re-verifying the bridged bytes 5–7 (which differ).  The
merged match covers both buffers entirely, `Compare` emits no chunks, and
`Patch` returns the old buffer, silently dropping the change. -/
theorem compare_patch_roundtrip_drops_merged_gap :
    (GenericBinaryHandler.Compare NewGenericBinaryHandler mergeOld mergeNew).bind
        (fun cs => GenericBinaryHandler.Patch mergeOld cs) = some mergeOld ∧
      mergeOld ≠ mergeNew := by
  constructor
  · decide
  · decide

/-! ### Claim C2 -/

/-- C2: `Compare` returns an empty chunk sequence for DIFFERING buffers.  With
`old = "hello world"` and `new` empty the buffers differ, `findMatches`
returns no matches (empty new buffer), the gap loop emits nothing and the
trailing-chunk guard `lastNewEnd < len(new)` is false, so `Compare` returns
zero chunks — the repository's own test table (binary_test.go, case "one
empty file") expects a non-empty diff here. -/
theorem compare_empty_chunks_for_differing_buffers :
    GenericBinaryHandler.Compare NewGenericBinaryHandler helloWorld [] = some [] ∧
      helloWorld ≠ [] := by
  constructor
  · decide
  · decide

/-! ### Claim C9 -/

/-- C9: applying an empty chunk sequence is the identity for both handlers —
each `Patch` returns the original buffer unchanged and without error. -/
theorem patch_empty_chunks_identity (x : List Byte) :
    GenericBinaryHandler.Patch x [] = some x ∧ TextFileHandler.Patch x [] = some x := by
  constructor <;> rfl

/-! ### Claim C10 -/

/-- C10: every chunk a handler emits is tagged with that handler's own
file-type tag: `GenericBinaryHandler.Compare` only emits chunks whose
`ChunkType` is its `GetFileType` "binary", and `TextFileHandler.Compare` only
emits chunks whose `ChunkType` is its `GetFileType` "text". -/
theorem chunk_type_matches_handler :
    GenericBinaryHandler.GetFileType = "binary" ∧
    TextFileHandler.GetFileType = "text" ∧
    (∀ (h : GenericBinaryHandler) (old new : List Byte) (cs : List DiffChunk)
        (c : DiffChunk), GenericBinaryHandler.Compare h old new = some cs → c ∈ cs →
        c.ChunkType = GenericBinaryHandler.GetFileType) ∧
    (∀ (old new : List Byte) (c : DiffChunk), c ∈ TextFileHandler.Compare old new →
        c.ChunkType = TextFileHandler.GetFileType) := by
  refine ⟨rfl, rfl, ?_, ?_⟩
  · intro h old new cs c hcs hc
    unfold GenericBinaryHandler.Compare at hcs
    split at hcs
    · obtain rfl : ([] : List DiffChunk) = cs := by simpa using hcs
      simp at hc
    · exact buildChunks_chunkType old new _ _ _ _ _ hcs hc
  · intro old new c hc
    unfold TextFileHandler.Compare at hc
    split at hc
    · simp at hc
    · exact compareLoop_chunkType _ _ _ _ hc

/-- Witness for C10 at concrete inputs: a binary comparison of `[1]` against
`[2]` and a text comparison of "a" against "b". -/
theorem chunk_type_matches_handler_witness :
    (⟨0, [1], [2], "binary"⟩ : DiffChunk).ChunkType = GenericBinaryHandler.GetFileType ∧
      (⟨0, [97], [98], "text"⟩ : DiffChunk).ChunkType = TextFileHandler.GetFileType :=
  ⟨chunk_type_matches_handler.2.2.1 NewGenericBinaryHandler [1] [2]
      [⟨0, [1], [2], "binary"⟩] _ (by decide) (by simp),
    chunk_type_matches_handler.2.2.2 [97] [98] _ (by decide)⟩

/-! ### Stats lemmas (claims C5 and C6) -/

/-- The accumulator `if acc < m.Length then m.Length else acc` of
`AnalyzeBinaryDiff` is a `max` fold over the match lengths. -/
lemma foldl_length_max :
    ∀ (ms : List binaryMatch) (a : ℤ),
      ms.foldl (fun acc m => if acc < m.Length then m.Length else acc) a =
        (ms.map (·.Length)).foldl max a := by
  intro ms
  induction ms with
  | nil => intro a; rfl
  | cons m rest ih =>
    intro a
    simp only [List.foldl_cons, List.map_cons]
    rw [ih]
    congr 1
    by_cases hlt : a < m.Length
    · rw [if_pos hlt, max_eq_right hlt.le]
    · rw [if_neg hlt, max_eq_left (not_lt.1 hlt)]

/-- The accumulator `if m.Length < acc then m.Length else acc` of
`AnalyzeBinaryDiff` is a `min` fold over the match lengths. -/
lemma foldl_length_min :
    ∀ (ms : List binaryMatch) (a : ℤ),
      ms.foldl (fun acc m => if m.Length < acc then m.Length else acc) a =
        (ms.map (·.Length)).foldl min a := by
  intro ms
  induction ms with
  | nil => intro a; rfl
  | cons m rest ih =>
    intro a
    simp only [List.foldl_cons, List.map_cons]
    rw [ih]
    congr 1
    by_cases hlt : m.Length < a
    · rw [if_pos hlt, min_eq_right hlt.le]
    · rw [if_neg hlt, min_eq_left (not_lt.1 hlt)]

/-! ### Claim C6 -/

/-- Eighteen pairwise distinct bytes; the default handler finds one verified
match of length 18 when the buffer is compared against itself. -/
def distinctBytes18 : List Byte :=
  [0, 1, 2, 3, 4, 5, 6, 7, 8, 9, 10, 11, 12, 13, 14, 15, 16, 17]

/-- C6 counterexample: `SmallestMatch` is NOT the minimum match length.  On
`distinctBytes18` against itself the default handler finds exactly one match,
of length 18, yet `AnalyzeBinaryDiff` reports `SmallestMatch = 8`: the field
is initialised with `MinMatchLength` and only ever lowered, so it never rises
to the true minimum (the repository's own TestAnalyzeBinaryDiff fixes the
same behaviour: one match of length 18 with `SmallestMatch: 8`). -/
theorem analyze_smallest_match_not_minimum :
    (findMatches NewGenericBinaryHandler distinctBytes18 distinctBytes18).map (·.Length) =
        [18] ∧
      (AnalyzeBinaryDiff NewGenericBinaryHandler distinctBytes18 distinctBytes18).SmallestMatch
          = 8 ∧
      (8 : ℤ) ≠ 18 := by
  refine ⟨by decide, ?_, by decide⟩
  simp only [AnalyzeBinaryDiff]
  decide

/-- C6 as amended: `AnalyzeBinaryDiff` reports the match count, the summed
match lengths, the maximum match length (a `max` fold from 0), the average
`total/count`, and `len(new)/total` as compression ratio with the convention
`1.0` for zero matches — but `SmallestMatch` is the minimum of
`MinMatchLength` and the match lengths (a `min` fold primed with
`MinMatchLength`), not the minimum match length itself. -/
theorem analyze_stats_formulas (h : GenericBinaryHandler) (old new : List Byte) :
    (AnalyzeBinaryDiff h old new).MatchCount = (findMatches h old new).length ∧
    (findMatches h old new = [] → (AnalyzeBinaryDiff h old new).CompressionRatio = 1) ∧
    (findMatches h old new ≠ [] →
      (AnalyzeBinaryDiff h old new).TotalMatchedBytes =
          ((findMatches h old new).map (·.Length)).sum ∧
        (AnalyzeBinaryDiff h old new).LargestMatch =
          ((findMatches h old new).map (·.Length)).foldl max 0 ∧
        (AnalyzeBinaryDiff h old new).SmallestMatch =
          ((findMatches h old new).map (·.Length)).foldl min (h.MinMatchLength : ℤ) ∧
        (AnalyzeBinaryDiff h old new).AverageMatchSize =
          ((((findMatches h old new).map (·.Length)).sum : ℤ) : ℚ) /
            ((findMatches h old new).length : ℚ) ∧
        (AnalyzeBinaryDiff h old new).CompressionRatio =
          ((new.length : ℕ) : ℚ) / ((((findMatches h old new).map (·.Length)).sum : ℤ) : ℚ)) := by
  by_cases hms : findMatches h old new = []
  · refine ⟨?_, fun _ => ?_, fun hne => absurd hms hne⟩
    · simp [AnalyzeBinaryDiff, hms]
    · simp [AnalyzeBinaryDiff, hms]
  · refine ⟨?_, fun heq => absurd heq hms, fun _ => ?_⟩
    · simp [AnalyzeBinaryDiff, hms]
    · refine ⟨?_, ?_, ?_, ?_, ?_⟩ <;>
        simp [AnalyzeBinaryDiff, hms, foldl_length_max, foldl_length_min]

/-- Witness for C6 at concrete inputs: `distinctBytes18` against itself (one
match) and `[1]` against `[2]` (no matches, ratio convention 1). -/
theorem analyze_stats_formulas_witness :
    (AnalyzeBinaryDiff NewGenericBinaryHandler distinctBytes18 distinctBytes18).MatchCount =
        (findMatches NewGenericBinaryHandler distinctBytes18 distinctBytes18).length ∧
      (AnalyzeBinaryDiff NewGenericBinaryHandler distinctBytes18
            distinctBytes18).TotalMatchedBytes =
        ((findMatches NewGenericBinaryHandler distinctBytes18 distinctBytes18).map
            (·.Length)).sum ∧
      (AnalyzeBinaryDiff NewGenericBinaryHandler [1] [2]).CompressionRatio = 1 :=
  ⟨(analyze_stats_formulas NewGenericBinaryHandler distinctBytes18 distinctBytes18).1,
    ((analyze_stats_formulas NewGenericBinaryHandler distinctBytes18 distinctBytes18).2.2
        (by decide)).1,
    (analyze_stats_formulas NewGenericBinaryHandler [1] [2]).2.1 (by decide)⟩

/-! ### Claim C5 -/

/-- A previous-call stats record distinguishable from anything a fresh call
could produce here. -/
def staleStats : BinaryDiffStats := { zeroStats with ChunkCount := 99 }

/-- A handler carrying `staleStats` from an earlier comparison. -/
def staleHandler : GenericBinaryHandler := { NewGenericBinaryHandler with Stats := staleStats }

/-- C5 counterexample: when `old == new`, `Compare` returns before recomputing
anything, so the stats are NOT replaced — after `Compare([0], [0])` the
handler still reports the stale `ChunkCount = 99` of the previous call even
though this call produced 0 chunks. -/
theorem compare_equal_buffers_keeps_stale_stats :
    GenericBinaryHandler.compareAfter staleHandler [0] [0] = staleHandler ∧
      (GenericBinaryHandler.GetLatestStats
          (GenericBinaryHandler.compareAfter staleHandler [0] [0])).ChunkCount = 99 ∧
      GenericBinaryHandler.Compare staleHandler [0] [0] = some [] ∧
      (99 : ℕ) ≠ 0 := by
  refine ⟨rfl, rfl, by decide, by decide⟩

/-- The parameter retuning of `OptimizeBinaryDiff` never reads the stats
field: replacing it commutes with the optimisation. -/
lemma optimize_stats_congr (h : GenericBinaryHandler) (s : BinaryDiffStats)
    (d : List Byte) :
    OptimizeBinaryDiff { h with Stats := s } d = { OptimizeBinaryDiff h d with Stats := s } := by
  unfold OptimizeBinaryDiff
  dsimp only
  split_ifs <;> rfl

/-- The chunk list returned by `Compare` never reads the stored stats. -/
lemma compare_stats_congr (h : GenericBinaryHandler) (s : BinaryDiffStats)
    (old new : List Byte) :
    GenericBinaryHandler.Compare { h with Stats := s } old new =
      GenericBinaryHandler.Compare h old new := by
  unfold GenericBinaryHandler.Compare
  by_cases heq : old = new
  · rw [if_pos heq, if_pos heq]
  · rw [if_neg heq, if_neg heq]
    dsimp only
    rw [optimize_stats_congr]
    rfl

/-- On a completing call with distinct buffers, the handler after `Compare`
is the optimised handler carrying the freshly analysed stats. -/
lemma compareAfter_stats (h : GenericBinaryHandler) (old new : List Byte)
    (cs : List DiffChunk) (hne : old ≠ new)
    (hcs : GenericBinaryHandler.Compare h old new = some cs) :
    GenericBinaryHandler.compareAfter h old new =
      { OptimizeBinaryDiff h new with Stats :=
          { AnalyzeBinaryDiff (OptimizeBinaryDiff h new) old new with
              ChunkCount := cs.length, Entropy := calculateEntropy new } } := by
  unfold GenericBinaryHandler.Compare at hcs
  rw [if_neg hne] at hcs
  unfold GenericBinaryHandler.compareAfter
  rw [if_neg hne]
  dsimp only at hcs ⊢
  rw [hcs]

/-- C5 as amended: on a call with `old ≠ new` that completes, the stats stored
in the handler are recomputed from scratch — they are a function of the
tuning parameters and the buffers alone, independent of the previously stored
stats, and equal the freshly analysed stats with this call's chunk count and
the new buffer's entropy.  When `old == new`, however, `Compare` returns
early and the handler (hence `GetLatestStats`) is left entirely unchanged. -/
theorem compare_stats_replacement (h : GenericBinaryHandler) (s : BinaryDiffStats)
    (old new : List Byte) :
    (old = new → GenericBinaryHandler.compareAfter h old new = h) ∧
    (∀ cs : List DiffChunk, old ≠ new → GenericBinaryHandler.Compare h old new = some cs →
      GenericBinaryHandler.GetLatestStats
          (GenericBinaryHandler.compareAfter { h with Stats := s } old new) =
        GenericBinaryHandler.GetLatestStats (GenericBinaryHandler.compareAfter h old new) ∧
      GenericBinaryHandler.GetLatestStats (GenericBinaryHandler.compareAfter h old new) =
        { AnalyzeBinaryDiff (OptimizeBinaryDiff h new) old new with
            ChunkCount := cs.length, Entropy := calculateEntropy new }) := by
  constructor
  · intro heq
    unfold GenericBinaryHandler.compareAfter
    rw [if_pos heq]
  · intro cs hne hcs
    have hcs' : GenericBinaryHandler.Compare { h with Stats := s } old new = some cs := by
      rw [compare_stats_congr]; exact hcs
    simp only [GenericBinaryHandler.GetLatestStats]
    rw [compareAfter_stats _ old new cs hne hcs', compareAfter_stats h old new cs hne hcs,
      optimize_stats_congr]
    exact ⟨rfl, rfl⟩

/-- Witness for C5 at concrete inputs: comparing `[0]` against `[1]` with two
different prior stats records, and `[0]` against itself. -/
theorem compare_stats_replacement_witness :
    GenericBinaryHandler.GetLatestStats
        (GenericBinaryHandler.compareAfter
          { NewGenericBinaryHandler with Stats := staleStats } [0] [1]) =
      GenericBinaryHandler.GetLatestStats
        (GenericBinaryHandler.compareAfter NewGenericBinaryHandler [0] [1]) ∧
      GenericBinaryHandler.compareAfter NewGenericBinaryHandler [0] [0] =
        NewGenericBinaryHandler :=
  ⟨((compare_stats_replacement NewGenericBinaryHandler staleStats [0] [1]).2
      [⟨0, [0], [1], "binary"⟩] (by decide) (by decide)).1,
    (compare_stats_replacement NewGenericBinaryHandler staleStats [0] [0]).1 rfl⟩

/-! ### Entropy lemmas (claims C7 and C8) -/

/-- The byte frequencies summed over the occurring bytes give the length. -/
lemma count_sum_toFinset (data : List Byte) :
    ∑ b in data.toFinset, data.count b = data.length := by
  simp

/-- A byte in `data.toFinset` occurs at least once. -/
lemma count_pos_of_mem_toFinset {data : List Byte} {b : Byte} (hb : b ∈ data.toFinset) :
    0 < data.count b :=
  List.count_pos_iff.2 (List.mem_toFinset.1 hb)

/-- Entropy of the empty buffer is zero (the Go early return). -/
lemma calculateEntropy_nil : calculateEntropy [] = 0 := by
  simp [calculateEntropy]

/-- Entropy is non-negative: each summand `p·log₂ p` is non-positive. -/
lemma calculateEntropy_nonneg (data : List Byte) : 0 ≤ calculateEntropy data := by
  unfold calculateEntropy
  split
  · exact le_refl 0
  · rename_i hlen
    have hn0 : (0 : ℝ) < (data.length : ℝ) := by
      exact_mod_cast Nat.pos_of_ne_zero hlen
    have hsum : (∑ b in data.toFinset,
        ((data.count b : ℝ) / data.length) * Real.logb 2 ((data.count b : ℝ) / data.length))
        ≤ 0 := by
      apply Finset.sum_nonpos
      intro b hb
      have hp0 : (0 : ℝ) ≤ (data.count b : ℝ) / data.length := by positivity
      have hp1 : (data.count b : ℝ) / data.length ≤ 1 := by
        rw [div_le_one hn0]
        exact_mod_cast List.count_le_length b data
      exact mul_nonpos_iff.2 (Or.inl ⟨hp0, Real.logb_nonpos one_lt_two hp0 hp1⟩)
    have h8 : (0 : ℝ) < 8 := by norm_num
    exact div_nonneg (neg_nonneg.2 hsum) h8.le

/-- Entropy is at most one: by Jensen's inequality for the concave logarithm,
the Shannon entropy of a distribution over at most 256 byte values is at most
`log₂ 256 = 8` bits. -/
lemma calculateEntropy_le_one (data : List Byte) : calculateEntropy data ≤ 1 := by
  unfold calculateEntropy
  split
  · norm_num
  · rename_i hlen
    have hn0 : (0 : ℝ) < (data.length : ℝ) := by
      exact_mod_cast Nat.pos_of_ne_zero hlen
    have hL2 : (0 : ℝ) < Real.log 2 := Real.log_pos one_lt_two
    have hwpos : ∀ b ∈ data.toFinset, (0 : ℝ) < (data.count b : ℝ) / data.length := by
      intro b hb
      have := count_pos_of_mem_toFinset hb
      positivity
    have hw1 : ∑ b in data.toFinset, (data.count b : ℝ) / data.length = 1 := by
      rw [← Finset.sum_div]
      rw [div_eq_one_iff_eq hn0.ne']
      exact_mod_cast count_sum_toFinset data
    have hmem : ∀ b ∈ data.toFinset,
        ((data.count b : ℝ) / data.length)⁻¹ ∈ Set.Ioi (0 : ℝ) := by
      intro b hb
      exact Set.mem_Ioi.2 (inv_pos.2 (hwpos b hb))
    have jensen := (strictConcaveOn_log_Ioi.concaveOn).le_map_sum
      (fun b hb => (hwpos b hb).le) hw1 hmem
    have hpt : ∑ b in data.toFinset,
        ((data.count b : ℝ) / data.length) • (((data.count b : ℝ) / data.length)⁻¹) =
        (data.toFinset.card : ℝ) := by
      rw [Finset.sum_congr rfl (fun b hb => by
        rw [smul_eq_mul, mul_inv_cancel₀ (hwpos b hb).ne'])]
      simp
    have hlhs : ∑ b in data.toFinset,
        ((data.count b : ℝ) / data.length) • Real.log (((data.count b : ℝ) / data.length)⁻¹) =
        -∑ b in data.toFinset,
          ((data.count b : ℝ) / data.length) * Real.log ((data.count b : ℝ) / data.length) := by
      rw [← Finset.sum_neg_distrib]
      exact Finset.sum_congr rfl (fun b hb => by
        rw [smul_eq_mul, Real.log_inv, mul_neg])
    have hcard : (data.toFinset.card : ℝ) ≤ 256 := by
      have h1 : data.toFinset.card ≤ Fintype.card Byte := Finset.card_le_univ _
      have h2 : Fintype.card Byte = 256 := Fintype.card_fin 256
      exact_mod_cast h1.trans_eq h2
    have hcardpos : (0 : ℝ) < (data.toFinset.card : ℝ) := by
      have : data.toFinset.Nonempty := by
        rw [List.toFinset_nonempty_iff]
        exact List.ne_nil_of_length_pos (Nat.pos_of_ne_zero hlen)
      exact_mod_cast Finset.card_pos.2 this
    have hlog : -∑ b in data.toFinset,
        ((data.count b : ℝ) / data.length) * Real.log ((data.count b : ℝ) / data.length) ≤
        8 * Real.log 2 := by
      rw [← hlhs]
      refine jensen.trans ?_
      rw [hpt]
      calc Real.log (data.toFinset.card : ℝ)
          ≤ Real.log 256 := Real.log_le_log hcardpos hcard
        _ = 8 * Real.log 2 := by
            rw [show (256 : ℝ) = 2 ^ 8 by norm_num, Real.log_pow]
            norm_num
    have hlogb : -(∑ b in data.toFinset,
        ((data.count b : ℝ) / data.length) * Real.logb 2 ((data.count b : ℝ) / data.length)) ≤
        8 := by
      have hconv : ∑ b in data.toFinset,
          ((data.count b : ℝ) / data.length) * Real.logb 2 ((data.count b : ℝ) / data.length) =
          (∑ b in data.toFinset,
            ((data.count b : ℝ) / data.length) * Real.log ((data.count b : ℝ) / data.length)) /
            Real.log 2 := by
        rw [Finset.sum_div]
        exact Finset.sum_congr rfl (fun b hb => by rw [Real.logb, mul_div_assoc])
      rw [hconv, ← neg_div, div_le_iff₀ hL2]
      linarith [hlog]
    rw [div_le_one (by norm_num : (0 : ℝ) < 8)]
    exact hlogb

/-- Entropy of a constant buffer is zero: the single frequency is `1` and
`log₂ 1 = 0`. -/
lemma calculateEntropy_replicate (b : Byte) (k : ℕ) (hk : k ≠ 0) :
    calculateEntropy (List.replicate k b) = 0 := by
  unfold calculateEntropy
  rw [if_neg (by simpa using hk)]
  have hF : (List.replicate k b).toFinset = {b} := by
    ext x
    simp [List.mem_replicate, hk]
  rw [hF, Finset.sum_singleton]
  have hc : (List.replicate k b).count b = k := by simp
  rw [hc, List.length_replicate]
  rw [div_self (by exact_mod_cast hk : ((k : ℝ)) ≠ 0)]
  simp

/-- The byte frequencies normalised by the length sum to one. -/
lemma freq_sum_one {data : List Byte} (hlen : data.length ≠ 0) :
    ∑ b in data.toFinset, (data.count b : ℝ) / data.length = 1 := by
  have hn0 : (0 : ℝ) < (data.length : ℝ) := by exact_mod_cast Nat.pos_of_ne_zero hlen
  rw [← Finset.sum_div, div_eq_one_iff_eq hn0.ne']
  exact_mod_cast count_sum_toFinset data

/-- For a non-empty buffer the entropy can be written with the raw counts:
`(log₂ n - (∑ c·log₂ c) / n) / 8`. -/
lemma calculateEntropy_eq_counts {data : List Byte} (hlen : data.length ≠ 0) :
    calculateEntropy data =
      (Real.logb 2 (data.length : ℝ) -
        (∑ b in data.toFinset, (data.count b : ℝ) * Real.logb 2 (data.count b : ℝ)) /
          (data.length : ℝ)) / 8 := by
  unfold calculateEntropy
  rw [if_neg hlen]
  have hnne : ((data.length : ℝ)) ≠ 0 := by exact_mod_cast hlen
  have hterm : ∀ b ∈ data.toFinset,
      ((data.count b : ℝ) / data.length) * Real.logb 2 ((data.count b : ℝ) / data.length) =
        ((data.count b : ℝ) * Real.logb 2 (data.count b : ℝ)) / data.length -
          ((data.count b : ℝ) / data.length) * Real.logb 2 (data.length : ℝ) := by
    intro b hb
    have hcne : ((data.count b : ℝ)) ≠ 0 := by
      exact_mod_cast (count_pos_of_mem_toFinset hb).ne'
    rw [Real.logb_div hcne hnne]
    ring
  rw [Finset.sum_congr rfl hterm, Finset.sum_sub_distrib, ← Finset.sum_div, ← Finset.sum_mul,
    freq_sum_one hlen, one_mul]
  ring

/-- The executable integer comparison `entropyGtB` decides the exact real
comparison `num/den < calculateEntropy data`. -/
lemma entropyGtB_iff (data : List Byte) (num den : ℕ) (hnum : 0 < num) (hden : 0 < den) :
    entropyGtB data num den = true ↔ (num : ℝ) / (den : ℝ) < calculateEntropy data := by
  rcases eq_or_ne data.length 0 with hlen | hlen
  · obtain rfl : data = [] := List.length_eq_zero.1 hlen
    simp only [entropyGtB, decide_eq_true_eq, calculateEntropy]
    norm_num
    positivity
  · have hnpos : 0 < data.length := Nat.pos_of_ne_zero hlen
    have hnR : (0 : ℝ) < (data.length : ℝ) := by exact_mod_cast hnpos
    have hdenR : (0 : ℝ) < (den : ℝ) := by exact_mod_cast hden
    have hcpos : ∀ b ∈ data.toFinset, 0 < data.count b := fun b hb =>
      count_pos_of_mem_toFinset hb
    have hcRne : ∀ b ∈ data.toFinset, ((data.count b : ℝ)) ≠ 0 := fun b hb => by
      exact_mod_cast (hcpos b hb).ne'
    -- the real comparison, unfolded through the count form of the entropy
    rw [calculateEntropy_eq_counts hlen]
    rw [lt_div_iff₀ (by norm_num : (0 : ℝ) < 8), div_mul_eq_mul_div, div_lt_iff₀ hdenR,
      ← mul_lt_mul_right hnR]
    have hrhs : (Real.logb 2 (data.length : ℝ) -
          (∑ b in data.toFinset, (data.count b : ℝ) * Real.logb 2 (data.count b : ℝ)) /
            (data.length : ℝ)) * (den : ℝ) * (data.length : ℝ) =
        ((den * data.length : ℕ) : ℝ) * Real.logb 2 (data.length : ℝ) -
          (den : ℝ) *
            ∑ b in data.toFinset, (data.count b : ℝ) * Real.logb 2 (data.count b : ℝ) := by
      have hx : ((den * data.length : ℕ) : ℝ) = (den : ℝ) * (data.length : ℝ) := by
        push_cast
        ring
      rw [hx]
      field_simp
      ring
    rw [hrhs]
    -- fold the two log terms into logs of the integer power products
    have hlogA : ((den * data.length : ℕ) : ℝ) * Real.logb 2 (data.length : ℝ) =
        Real.logb 2 ((data.length ^ (den * data.length) : ℕ) : ℝ) := by
      push_cast
      rw [Real.logb_pow]
      push_cast
      ring
    have hlogW : (den : ℝ) *
          ∑ b in data.toFinset, (data.count b : ℝ) * Real.logb 2 (data.count b : ℝ) =
        Real.logb 2 ((∏ b in data.toFinset, data.count b ^ (den * data.count b) : ℕ) : ℝ) := by
      push_cast
      rw [Real.logb_prod _ _ (fun b hb => pow_ne_zero _ (hcRne b hb))]
      rw [Finset.mul_sum]
      refine Finset.sum_congr rfl (fun b hb => ?_)
      rw [Real.logb_pow]
      push_cast
      ring
    rw [hlogA, hlogW]
    -- move the additive constant into the left log
    have hWpos : 0 < ∏ b in data.toFinset, data.count b ^ (den * data.count b) :=
      Finset.prod_pos (fun b hb => pow_pos (hcpos b hb) _)
    have hWR : (0 : ℝ) < ((∏ b in data.toFinset, data.count b ^ (den * data.count b) : ℕ) : ℝ) := by
      exact_mod_cast hWpos
    have hAR : (0 : ℝ) < ((data.length ^ (den * data.length) : ℕ) : ℝ) := by
      exact_mod_cast pow_pos hnpos _
    have hsplit : Real.logb 2 (((2 : ℝ) ^ (8 * num * data.length)) *
          ((∏ b in data.toFinset, data.count b ^ (den * data.count b) : ℕ) : ℝ)) =
        ((num : ℝ) * 8 * (data.length : ℝ)) +
          Real.logb 2 ((∏ b in data.toFinset, data.count b ^ (den * data.count b) : ℕ) : ℝ) := by
      rw [Real.logb_mul (by positivity) hWR.ne']
      rw [Real.logb_pow, Real.logb_self_eq_one one_lt_two]
      push_cast
      ring
    rw [lt_sub_iff_add_lt, ← hsplit]
    rw [Real.logb_lt_logb_iff one_lt_two (by positivity) hAR]
    -- down to the integer inequality that `entropyGtB` decides
    have hcast : ((2 : ℝ) ^ (8 * num * data.length)) *
          ((∏ b in data.toFinset, data.count b ^ (den * data.count b) : ℕ) : ℝ) =
        ((2 ^ (8 * num * data.length) *
            ∏ b in data.toFinset, data.count b ^ (den * data.count b) : ℕ) : ℝ) := by
      push_cast
      ring
    rw [hcast, Nat.cast_lt]
    simp [entropyGtB]

/-! ### Claim C8 -/

/-- C8: `calculateEntropy` always lies in `[0, 1]`; it is `0` on the empty
buffer and `0` on every non-empty constant buffer. -/
theorem calculateEntropy_bounds (data : List Byte) :
    0 ≤ calculateEntropy data ∧ calculateEntropy data ≤ 1 ∧
      (data = [] → calculateEntropy data = 0) ∧
      (∀ (b : Byte) (k : ℕ), k ≠ 0 → data = List.replicate k b → calculateEntropy data = 0) :=
  ⟨calculateEntropy_nonneg data, calculateEntropy_le_one data,
    fun h => h ▸ calculateEntropy_nil,
    fun b k hk h => h ▸ calculateEntropy_replicate b k hk⟩

/-- Witness for C8 at concrete inputs: the empty buffer and the constant
buffer `[7, 7, 7]`. -/
theorem calculateEntropy_bounds_witness :
    calculateEntropy [] = 0 ∧ calculateEntropy (List.replicate 3 (7 : Byte)) = 0 ∧
      0 ≤ calculateEntropy [0, 1] ∧ calculateEntropy [0, 1] ≤ 1 :=
  ⟨(calculateEntropy_bounds []).2.2.1 rfl,
    (calculateEntropy_bounds (List.replicate 3 (7 : Byte))).2.2.2 7 3 (by decide) rfl,
    (calculateEntropy_bounds [0, 1]).1, (calculateEntropy_bounds [0, 1]).2.1⟩

/-! ### Claim C7 -/

/-- C7: for buffers of at most 1 MiB the size-based adjustments do not fire,
and `OptimizeBinaryDiff` sets the tuning parameters purely from the
normalised entropy: `(16, 256)` above `0.8`, `(8, 1024)` in `(0.5, 0.8]`, and
`(4, 2048)` at or below `0.5`. -/
theorem optimize_entropy_thresholds (h : GenericBinaryHandler) (data : List Byte)
    (hsize : data.length ≤ 1024 * 1024) :
    ((0.8 : ℝ) < calculateEntropy data →
      (OptimizeBinaryDiff h data).MinMatchLength = 16 ∧
        (OptimizeBinaryDiff h data).MaxGapSize = 256) ∧
    ((0.5 : ℝ) < calculateEntropy data → calculateEntropy data ≤ (0.8 : ℝ) →
      (OptimizeBinaryDiff h data).MinMatchLength = 8 ∧
        (OptimizeBinaryDiff h data).MaxGapSize = 1024) ∧
    (calculateEntropy data ≤ (0.5 : ℝ) →
      (OptimizeBinaryDiff h data).MinMatchLength = 4 ∧
        (OptimizeBinaryDiff h data).MaxGapSize = 2048) := by
  have h45 := entropyGtB_iff data 4 5 (by norm_num) (by norm_num)
  have h12 := entropyGtB_iff data 1 2 (by norm_num) (by norm_num)
  have he45 : ((4 : ℕ) : ℝ) / ((5 : ℕ) : ℝ) = (0.8 : ℝ) := by norm_num
  have he12 : ((1 : ℕ) : ℝ) / ((2 : ℕ) : ℝ) = (0.5 : ℝ) := by norm_num
  rw [he45] at h45
  rw [he12] at h12
  have hsz1 : ¬ 10 * 1024 * 1024 < data.length := by omega
  have hsz2 : ¬ 1024 * 1024 < data.length := by omega
  unfold OptimizeBinaryDiff
  dsimp only
  rw [if_neg hsz1, if_neg hsz2]
  by_cases hb1 : entropyGtB data 4 5 = true
  · have hgt : (0.8 : ℝ) < calculateEntropy data := h45.1 hb1
    rw [if_pos hb1]
    refine ⟨fun _ => ⟨rfl, rfl⟩, fun h05 h08 => absurd hgt (not_lt.2 h08), fun h05 => ?_⟩
    exact absurd hgt (not_lt.2 (h05.trans (by norm_num)))
  · have hle : calculateEntropy data ≤ (0.8 : ℝ) := not_lt.1 (fun hgt => hb1 (h45.2 hgt))
    rw [if_neg hb1]
    by_cases hb2 : entropyGtB data 1 2 = true
    · have hgt2 : (0.5 : ℝ) < calculateEntropy data := h12.1 hb2
      rw [if_pos hb2]
      exact ⟨fun h08 => absurd h08 (not_lt.2 hle), fun _ _ => ⟨rfl, rfl⟩,
        fun h05 => absurd hgt2 (not_lt.2 h05)⟩
    · have hle2 : calculateEntropy data ≤ (0.5 : ℝ) := not_lt.1 (fun hgt => hb2 (h12.2 hgt))
      rw [if_neg hb2]
      exact ⟨fun h08 => absurd h08 (not_lt.2 hle), fun h05 _ => absurd h05 (not_lt.2 hle2),
        fun _ => ⟨rfl, rfl⟩⟩

/-- Entropy of a duplicate-free buffer is `log₂ n / 8`: the distribution is
uniform over its `n` distinct byte values. -/
lemma calculateEntropy_nodup (data : List Byte) (hne : data ≠ []) (hnd : data.Nodup) :
    calculateEntropy data = Real.logb 2 (data.length : ℝ) / 8 := by
  have hlen : data.length ≠ 0 := fun h => hne (List.length_eq_zero.1 h)
  rw [calculateEntropy_eq_counts hlen]
  have hnR : (0 : ℝ) < (data.length : ℝ) := by
    exact_mod_cast Nat.pos_of_ne_zero hlen
  have hterm : ∀ b ∈ data.toFinset,
      (data.count b : ℝ) * Real.logb 2 (data.count b : ℝ) = 0 := by
    intro b hb
    rw [List.count_eq_one_of_mem hnd (List.mem_toFinset.1 hb)]
    simp
  rw [Finset.sum_congr rfl hterm]
  simp

/-- All 256 byte values, once each: normalised entropy exactly 1. -/
def allBytes : List Byte := List.finRange 256

/-- The 32 byte values `0, …, 31`, once each: normalised entropy exactly 5/8. -/
def midBytes : List Byte := (List.finRange 32).map (Fin.castLE (by norm_num))

lemma allBytes_entropy : calculateEntropy allBytes = 1 := by
  rw [calculateEntropy_nodup allBytes
    (List.ne_nil_of_length_pos (by simp [allBytes])) (List.nodup_finRange 256)]
  have hlen : allBytes.length = 256 := List.length_finRange 256
  rw [hlen]
  rw [show ((256 : ℕ) : ℝ) = 2 ^ (8 : ℕ) by norm_num, Real.logb_pow,
    Real.logb_self_eq_one one_lt_two]
  norm_num

lemma midBytes_entropy : calculateEntropy midBytes = 5 / 8 := by
  have hnd : midBytes.Nodup :=
    (List.nodup_finRange 32).map (Fin.castLE_injective (by norm_num))
  rw [calculateEntropy_nodup midBytes (List.ne_nil_of_length_pos (by simp [midBytes])) hnd]
  have hlen : midBytes.length = 32 := by
    simp [midBytes]
  rw [hlen]
  rw [show ((32 : ℕ) : ℝ) = 2 ^ (5 : ℕ) by norm_num, Real.logb_pow,
    Real.logb_self_eq_one one_lt_two]
  norm_num

/-- Witness for C7 at concrete inputs: all 256 bytes (entropy 1), the bytes
0–31 (entropy 5/8) and a constant buffer (entropy 0). -/
theorem optimize_entropy_thresholds_witness :
    (OptimizeBinaryDiff NewGenericBinaryHandler allBytes).MinMatchLength = 16 ∧
      (OptimizeBinaryDiff NewGenericBinaryHandler allBytes).MaxGapSize = 256 ∧
      (OptimizeBinaryDiff NewGenericBinaryHandler midBytes).MinMatchLength = 8 ∧
      (OptimizeBinaryDiff NewGenericBinaryHandler midBytes).MaxGapSize = 1024 ∧
      (OptimizeBinaryDiff NewGenericBinaryHandler (List.replicate 4 (7 : Byte))).MinMatchLength
          = 4 ∧
      (OptimizeBinaryDiff NewGenericBinaryHandler (List.replicate 4 (7 : Byte))).MaxGapSize
          = 2048 := by
  have h1 := (optimize_entropy_thresholds NewGenericBinaryHandler allBytes
      (by simp [allBytes])).1
    (by rw [allBytes_entropy]; norm_num)
  have h2 := (optimize_entropy_thresholds NewGenericBinaryHandler midBytes
      (by simp [midBytes])).2.1
    (by rw [midBytes_entropy]; norm_num) (by rw [midBytes_entropy]; norm_num)
  have h3 := (optimize_entropy_thresholds NewGenericBinaryHandler
      (List.replicate 4 (7 : Byte)) (by simp)).2.2
    (by rw [calculateEntropy_replicate 7 4 (by norm_num)]; norm_num)
  exact ⟨h1.1, h1.2, h2.1, h2.2, h3.1, h3.2⟩

/-! ### Ordering invariants of the produced chunks (claim C3) -/

/-- A successful Go slice records its bounds and has length `b - a`. -/
lemma goSlice_eq_some {l : List Byte} {a b : ℤ} {s : List Byte}
    (h : goSlice l a b = some s) :
    0 ≤ a ∧ a ≤ b ∧ b ≤ (l.length : ℤ) ∧ (s.length : ℤ) = b - a := by
  unfold goSlice at h
  split at h
  · rename_i hcond
    obtain ⟨h0, hab, hbl⟩ := hcond
    obtain rfl : (l.drop a.toNat).take (b - a).toNat = s := by simpa using h
    refine ⟨h0, hab, hbl, ?_⟩
    rw [List.length_take, List.length_drop]
    omega
  · exact absurd h (by simp)

/-- Matches produced by the scan loop start at or after the scan position,
have a non-negative old offset and are at least `mml` long. -/
lemma scanStep_some {old new : List Byte} {mml i pos len : ℕ}
    (h : scanStep old new mml i = some (pos, len)) :
    mml ≤ len ∧ len = extendMatch (old.drop pos) (new.drop i) := by
  obtain ⟨pos', hpos', hf⟩ := List.exists_of_findSome?_eq_some h
  dsimp only at hf
  split at hf
  · rename_i hle
    simp only [Option.some.injEq, Prod.mk.injEq] at hf
    obtain ⟨rfl, rfl⟩ := hf
    exact ⟨hle, rfl⟩
  · exact absurd hf (by simp)

lemma scanLoop_bounds (old new : List Byte) (mml : ℕ) (hmml : 1 ≤ mml) :
    ∀ (fuel i : ℕ) (m : binaryMatch), m ∈ scanLoop old new mml fuel i →
      (i : ℤ) ≤ m.NewOffset ∧ 0 ≤ m.OldOffset ∧ (mml : ℤ) ≤ m.Length := by
  intro fuel
  induction fuel with
  | zero => intro i m hm; simp [scanLoop] at hm
  | succ fuel ih =>
    intro i m hm
    rw [scanLoop] at hm
    split at hm
    · rcases hstep : scanStep old new mml i with - | ⟨pos, len⟩
      · rw [hstep] at hm
        have := ih (i + mml) m hm
        refine ⟨le_trans ?_ this.1, this.2.1, this.2.2⟩
        have hle : i ≤ i + mml := by omega
        exact_mod_cast hle
      · rw [hstep] at hm
        have hlen : mml ≤ len := (scanStep_some hstep).1
        rcases List.mem_cons.1 hm with rfl | hmem
        · exact ⟨le_refl _, Int.ofNat_nonneg pos, by dsimp only; exact_mod_cast hlen⟩
        · have := ih (i + len - 1 + mml) m hmem
          refine ⟨le_trans ?_ this.1, this.2.1, this.2.2⟩
          have hle : i ≤ i + len - 1 + mml := by omega
          exact_mod_cast hle
    · simp at hm

/-- With a stride of at least 2 the scan's matches are strictly separated in
new-buffer coordinates: each match ends strictly before the next begins. -/
lemma scanLoop_chain (old new : List Byte) (mml : ℕ) (hmml : 2 ≤ mml) :
    ∀ (fuel i : ℕ),
      List.Chain' (fun x y => x.NewOffset + x.Length < y.NewOffset)
        (scanLoop old new mml fuel i) := by
  intro fuel
  induction fuel with
  | zero => intro i; simp [scanLoop]
  | succ fuel ih =>
    intro i
    rw [scanLoop]
    split
    · rcases hstep : scanStep old new mml i with - | ⟨pos, len⟩
      · exact ih _
      · have hlen : mml ≤ len := (scanStep_some hstep).1
        refine List.chain'_cons'.2 ⟨?_, ih _⟩
        intro b hb
        have hmem : b ∈ scanLoop old new mml fuel (i + len - 1 + mml) :=
          List.mem_of_mem_head? hb
        have hbnd := (scanLoop_bounds old new mml (by omega) fuel _ b hmem).1
        dsimp only
        have hstep2 : (i : ℤ) + (len : ℤ) < ((i + len - 1 + mml : ℕ) : ℤ) := by
          push_cast [Nat.cast_sub (by omega : 1 ≤ i + len)]
          omega
        exact lt_of_lt_of_le hstep2 hbnd
    · exact List.chain'_nil
/-- The merge loop preserves non-negative lengths and strict separation in
new-buffer coordinates, and its first output starts where `cur` starts. -/
lemma mergeLoop_good (maxGap : ℕ) :
    ∀ (rest : List binaryMatch) (cur : binaryMatch),
      (∀ m ∈ cur :: rest, 0 ≤ m.Length) →
      List.Chain' (fun x y => x.NewOffset + x.Length < y.NewOffset) (cur :: rest) →
      (∀ m ∈ mergeLoop maxGap cur rest, 0 ≤ m.Length) ∧
        List.Chain' (fun x y => x.NewOffset + x.Length < y.NewOffset)
          (mergeLoop maxGap cur rest) ∧
        ∀ m ∈ (mergeLoop maxGap cur rest).head?, m.NewOffset = cur.NewOffset := by
  intro rest
  induction rest with
  | nil =>
    intro cur hlen hchain
    refine ⟨?_, ?_, ?_⟩
    · intro m hm
      rw [mergeLoop] at hm
      obtain rfl : m = cur := by simpa using hm
      exact hlen m (by simp)
    · rw [mergeLoop]
      simp
    · intro m hm
      rw [mergeLoop] at hm
      obtain rfl : cur = m := by simpa using hm
      rfl
  | cons next rest ih =>
    intro cur hlen hchain
    have hR : cur.NewOffset + cur.Length < next.NewOffset := (List.chain'_cons.1 hchain).1
    have hcurlen : 0 ≤ cur.Length := hlen cur (by simp)
    have hnextlen : 0 ≤ next.Length := hlen next (by simp)
    rw [mergeLoop]
    split
    · rename_i hgap
      have hmerged := ih { cur with Length := next.NewOffset + next.Length - cur.NewOffset }
        (by
          intro m hm
          rcases List.mem_cons.1 hm with rfl | hm'
          · dsimp only
            linarith
          · exact hlen m (by simp [hm']))
        (by
          refine List.chain'_cons'.2 ⟨?_, ((List.chain'_cons.1 hchain).2).tail⟩
          intro y hy
          have := (List.chain'_cons'.1 (List.chain'_cons.1 hchain).2).1 y hy
          dsimp only
          linarith)
      exact ⟨hmerged.1, hmerged.2.1, fun m hm => hmerged.2.2 m hm⟩
    · rename_i hgap
      have hrest := ih next
        (fun m hm => hlen m (by simp [List.mem_cons.1 hm]))
        (List.chain'_cons.1 hchain).2
      refine ⟨?_, ?_, ?_⟩
      · intro m hm
        rcases List.mem_cons.1 hm with rfl | hm'
        · exact hcurlen
        · exact hrest.1 m hm'
      · refine List.chain'_cons'.2 ⟨?_, hrest.2.1⟩
        intro y hy
        have := hrest.2.2 y hy
        rw [this]
        exact hR
      · intro m hm
        obtain rfl : cur = m := by simpa using hm
        rfl

/-- `mergeAdjacentMatches` preserves non-negative lengths and strict
separation in new-buffer coordinates. -/
lemma mergeAdjacentMatches_good (maxGap : ℕ) (ms : List binaryMatch)
    (hlen : ∀ m ∈ ms, 0 ≤ m.Length)
    (hchain : List.Chain' (fun x y => x.NewOffset + x.Length < y.NewOffset) ms) :
    (∀ m ∈ mergeAdjacentMatches maxGap ms, 0 ≤ m.Length) ∧
      List.Chain' (fun x y => x.NewOffset + x.Length < y.NewOffset)
        (mergeAdjacentMatches maxGap ms) := by
  cases ms with
  | nil => simp [mergeAdjacentMatches]
  | cons m rest =>
    have := mergeLoop_good maxGap rest m hlen hchain
    exact ⟨this.1, this.2.1⟩

/-- When the matches have non-negative lengths, are strictly separated on the
new side, and the scan position is strictly before the first match, a
successful chunk build yields chunks whose replaced old regions are sorted
and non-overlapping, all at or after `a`. -/
lemma buildChunks_pairwise (old new : List Byte) :
    ∀ (ms : List binaryMatch) (a b : ℤ) (cs : List DiffChunk),
      (∀ m ∈ ms, 0 ≤ m.Length) →
      List.Chain' (fun x y => x.NewOffset + x.Length < y.NewOffset) ms →
      (∀ m ∈ ms.head?, b < m.NewOffset) →
      buildChunks old new ms a b = some cs →
      List.Pairwise (fun x y => x.Offset + (x.OldData.length : ℤ) ≤ y.Offset) cs ∧
        ∀ c ∈ cs, a ≤ c.Offset := by
  intro ms
  induction ms with
  | nil =>
    intro a b cs hlen hchain hb hcs
    simp only [buildChunks] at hcs
    split at hcs
    · simp only [bind, Option.bind_eq_some, pure] at hcs
      obtain ⟨od, hod, nd, hnd, hcs⟩ := hcs
      obtain rfl : [⟨a, od, nd, "binary"⟩] = cs := by simpa using hcs
      exact ⟨List.pairwise_singleton _ _, by simp⟩
    · obtain rfl : ([] : List DiffChunk) = cs := by simpa using hcs
      exact ⟨List.Pairwise.nil, by simp⟩
  | cons m rest ih =>
    intro a b cs hlen hchain hb hcs
    have hbm : b < m.NewOffset := hb m (by simp)
    simp only [buildChunks, if_pos hbm, bind, Option.bind_eq_some] at hcs
    obtain ⟨od, hod, nd, hnd, cs', hcs', hpure⟩ := hcs
    obtain rfl : (⟨a, od, nd, "binary"⟩ : DiffChunk) :: cs' = cs := by simpa using hpure
    obtain ⟨ha0, haod, hodle, hodlen⟩ := goSlice_eq_some hod
    have hmlen : 0 ≤ m.Length := hlen m (by simp)
    have ihres := ih (m.OldOffset + m.Length) (m.NewOffset + m.Length) cs'
      (fun x hx => hlen x (by simp [hx]))
      hchain.tail
      (fun x hx => (List.chain'_cons'.1 hchain).1 x hx)
      hcs'
    constructor
    · refine List.pairwise_cons.2 ⟨?_, ihres.1⟩
      intro c hc
      have hge := ihres.2 c hc
      dsimp only
      linarith
    · intro c hc
      rcases List.mem_cons.1 hc with rfl | hc'
      · exact le_refl _
      · have := ihres.2 c hc'
        linarith

/-- After retuning, `MinMatchLength` is always at least 4. -/
lemma optimize_min_match (h : GenericBinaryHandler) (d : List Byte) :
    4 ≤ (OptimizeBinaryDiff h d).MinMatchLength := by
  unfold OptimizeBinaryDiff
  dsimp only
  split_ifs <;> simp

/-- The chunks of a completing `Compare` call have sorted, non-overlapping
old-buffer regions. -/
lemma compare_pairwise (h : GenericBinaryHandler) (old new : List Byte)
    (cs : List DiffChunk) (hcs : GenericBinaryHandler.Compare h old new = some cs) :
    List.Pairwise (fun x y => x.Offset + (x.OldData.length : ℤ) ≤ y.Offset) cs := by
  unfold GenericBinaryHandler.Compare at hcs
  split at hcs
  · obtain rfl : ([] : List DiffChunk) = cs := by simpa using hcs
    exact List.Pairwise.nil
  · dsimp only at hcs
    unfold findMatches at hcs
    split at hcs
    · exact (buildChunks_pairwise old new [] 0 0 cs (by simp) (by simp) (by simp) hcs).1
    · have hmml2 : 2 ≤ (OptimizeBinaryDiff h new).MinMatchLength :=
        le_trans (by norm_num) (optimize_min_match h new)
      have hmml1 : 1 ≤ (OptimizeBinaryDiff h new).MinMatchLength :=
        le_trans (by norm_num) hmml2
      have hscanlen : ∀ m ∈ scanLoop old new (OptimizeBinaryDiff h new).MinMatchLength
          (new.length + 1) 0, 0 ≤ m.Length := by
        intro m hm
        have h1 := (scanLoop_bounds old new _ hmml1 _ _ m hm).2.2
        have h0 : (0 : ℤ) ≤ ((OptimizeBinaryDiff h new).MinMatchLength : ℤ) := by positivity
        linarith
      have hscanchain := scanLoop_chain old new _ hmml2 (new.length + 1) 0
      obtain ⟨hmlen, hmchain⟩ := mergeAdjacentMatches_good
        (OptimizeBinaryDiff h new).MaxGapSize _ hscanlen hscanchain
      cases hms : mergeAdjacentMatches (OptimizeBinaryDiff h new).MaxGapSize
          (scanLoop old new (OptimizeBinaryDiff h new).MinMatchLength (new.length + 1) 0) with
      | nil =>
        rw [hms] at hcs
        exact (buildChunks_pairwise old new [] 0 0 cs (by simp) (by simp) (by simp) hcs).1
      | cons m0 mrest =>
        rw [hms] at hcs hmlen hmchain
        by_cases h0 : (0 : ℤ) < m0.NewOffset
        · exact (buildChunks_pairwise old new (m0 :: mrest) 0 0 cs hmlen hmchain
            (by
              intro x hx
              obtain rfl : m0 = x := by simpa using hx
              exact h0) hcs).1
        · simp only [buildChunks, if_neg h0] at hcs
          exact (buildChunks_pairwise old new mrest (m0.OldOffset + m0.Length)
            (m0.NewOffset + m0.Length) cs
            (fun x hx => hmlen x (by simp [hx]))
            hmchain.tail
            (fun x hx => (List.chain'_cons'.1 hmchain).1 x hx)
            hcs).1

/-! ### Claim C3 -/

/-- C3: the chunk sequence returned by a completing `Compare` call has
non-decreasing `Offset` values, and the old-buffer regions the chunks replace
(`[Offset, Offset + len(OldData))`) are pairwise non-overlapping: each region
ends at or before the next begins. -/
theorem compare_chunks_sorted_nonoverlapping (h : GenericBinaryHandler)
    (old new : List Byte) (cs : List DiffChunk)
    (hcs : GenericBinaryHandler.Compare h old new = some cs) :
    List.Pairwise (fun x y => x.Offset ≤ y.Offset) cs ∧
      List.Pairwise (fun x y => x.Offset + (x.OldData.length : ℤ) ≤ y.Offset) cs := by
  have hp := compare_pairwise h old new cs hcs
  refine ⟨hp.imp ?_, hp⟩
  intro x y hxy
  have hx : (0 : ℤ) ≤ (x.OldData.length : ℤ) := by positivity
  linarith

/-- Witness for C3 at a concrete input producing a chunk. -/
theorem compare_chunks_sorted_nonoverlapping_witness :
    GenericBinaryHandler.Compare NewGenericBinaryHandler [1] [2] =
        some [⟨0, [1], [2], "binary"⟩] ∧
      List.Pairwise (fun x y => x.Offset + (x.OldData.length : ℤ) ≤ y.Offset)
        [(⟨0, [1], [2], "binary"⟩ : DiffChunk)] :=
  ⟨by decide,
    (compare_chunks_sorted_nonoverlapping NewGenericBinaryHandler [1] [2]
      [⟨0, [1], [2], "binary"⟩] (by decide)).2⟩

/-! ### The directory-comparison orchestrator (claim C4)

`DiffEngine.CompareDirs` (utils.go) walks the new tree with `filepath.Walk`,
dispatching one bounded-concurrency job per regular file, then walks the old
tree sequentially to detect deletions.  The embedding sequentialises the jobs
(the claim under study concerns error propagation, which is independent of
scheduling), models each `filepath.Walk` callback invocation as a `WalkItem`
(an error or a file entry carrying the `filepath.Rel` result), and abstracts
the I/O collaborators (file reads, hashing, gzip, stat, glob matching, path
functions) as pure functions in an `Env`.  `Logger.Log` calls are collected
in a ghost log list.  Wall-clock fields (`StartTime`, `EndTime`, `ModTime`
values) are abstract integers. -/

/-- Result of `os.ReadFile`: success, a not-exist error, or another error. -/
inductive ReadResult where
  | ok (data : List Byte)
  | notExist
  | failure (msg : String)

/-- The I/O collaborators of the orchestrator, as pure functions. -/
structure Env where
  readFile : String → ReadResult
  hash : String → String
  compress : List Byte → Bool → ℕ → List Byte
  statExists : String → Bool
  ext : String → String
  base : String → String
  joinPath : String → String → String
  matchGlob : String → String → Bool

/-- The `FileHandler` interface (models.go) as seen by `CompareDirs`:
`Compare` may fail, `GetFileType` tags results.  (`Patch` is not consulted by
the orchestrator.) -/
structure FileHandlerI where
  Compare : List Byte → List Byte → Except String (List DiffChunk)
  GetFileType : String

/-- `Configuration` from models.go. -/
structure Configuration where
  CompressPatches : Bool
  CompressionLevel : ℕ
  ChunkSize : ℤ
  Concurrency : ℕ
  IgnorePatterns : List String
  IncludePatterns : List String
  PreservePermissions : Bool
  MaxFileSizeBytes : ℤ
  BackupFiles : Bool
  BackupDir : String
  DetailedLogging : Bool

/-- `DiffResult` from models.go (`ModTime` is an abstract clock value). -/
structure DiffResult where
  Path : String
  Operation : String
  OldHash : String
  NewHash : String
  Chunks : List DiffChunk
  FileType : String
  Size : ℤ
  ModTime : ℤ
  Permissions : ℕ
  IsCompressed : Bool
deriving DecidableEq

/-- `DiffSummary` from models.go without its two wall-clock timestamps; the
`FileTypes` map is an association list. -/
structure DiffSummary where
  TotalFiles : ℕ
  AddedFiles : ℕ
  ModifiedFiles : ℕ
  DeletedFiles : ℕ
  TotalSizeBytes : ℤ
  CompressedBytes : ℤ
  FileTypes : List (String × ℕ)
deriving DecidableEq

/-- The all-zero summary `CompareDirs` starts from. -/
def emptySummary : DiffSummary :=
  { TotalFiles := 0, AddedFiles := 0, ModifiedFiles := 0, DeletedFiles := 0,
    TotalSizeBytes := 0, CompressedBytes := 0, FileTypes := [] }

/-- `summary.FileTypes[ft]++` on the association list. -/
def bumpFileType : List (String × ℕ) → String → List (String × ℕ)
  | [], ft => [(ft, 1)]
  | (k, v) :: rest, ft =>
    if k = ft then (k, v + 1) :: rest else (k, v) :: bumpFileType rest ft

/-- `DiffEngine` from utils.go as seen by `CompareDirs`: the extension-keyed
handler registry, the default (binary) handler and the configuration.  The
registry is read-only during a run, so the mutex is not modelled. -/
structure DiffEngine where
  handlers : List (String × FileHandlerI)
  defaultHandler : FileHandlerI
  config : Configuration

/-- `getHandler` from utils.go: lower-cased extension lookup with fallback to
the default handler. -/
def DiffEngine.getHandler (e : DiffEngine) (env : Env) (filename : String) : FileHandlerI :=
  ((e.handlers.lookup (env.ext filename).toLower).getD e.defaultHandler)

/-- `compareFiles` from utils.go: an absent old file yields an `added` result
wrapping the (optionally compressed) whole new content as one chunk; any read
error propagates; byte-equal files and empty chunk lists yield no result;
otherwise the handler's chunks (optionally compressed per chunk) make a
`modified` result. -/
def DiffEngine.compareFiles (e : DiffEngine) (env : Env) (oldPath newPath : String)
    (size modTime : ℤ) (perm : ℕ) : Except String (Option DiffResult) :=
  match env.readFile oldPath with
  | .notExist =>
    match env.readFile newPath with
    | .ok newData =>
      .ok (some
        { Path := env.base newPath, Operation := "added",
          OldHash := "", NewHash := env.hash newPath,
          Chunks := [⟨0, [],
            env.compress newData e.config.CompressPatches e.config.CompressionLevel,
            (e.getHandler env newPath).GetFileType⟩],
          FileType := (e.getHandler env newPath).GetFileType,
          Size := size, ModTime := modTime, Permissions := perm,
          IsCompressed := e.config.CompressPatches })
    | .notExist => .error "read new file"
    | .failure msg => .error msg
  | .failure msg => .error msg
  | .ok oldData =>
    match env.readFile newPath with
    | .ok newData =>
      if oldData = newData then .ok none
      else
        match (e.getHandler env newPath).Compare oldData newData with
        | .error msg => .error msg
        | .ok chunks =>
          if chunks = [] then .ok none
          else
            .ok (some
              { Path := env.base newPath, Operation := "modified",
                OldHash := env.hash oldPath, NewHash := env.hash newPath,
                Chunks :=
                  if e.config.CompressPatches then
                    chunks.map (fun c =>
                      { c with NewData := env.compress c.NewData true e.config.CompressionLevel })
                  else chunks,
                FileType := (e.getHandler env newPath).GetFileType,
                Size := size, ModTime := modTime, Permissions := perm,
                IsCompressed := e.config.CompressPatches })
    | .notExist => .error "read new file"
    | .failure msg => .error msg

/-- One `filepath.Walk` callback invocation: either the walk delivered an
error, or a path entry (with its pre-computed path relative to the root). -/
inductive WalkItem where
  | failure (msg : String)
  | entry (path relPath : String) (isDir : Bool) (size modTime : ℤ) (perm : ℕ)

/-- Whether a walk item is an enumeration error. -/
def WalkItem.isFailure : WalkItem → Bool
  | .failure _ => true
  | _ => false

/-- The shared state mutated under the mutex, plus the ghost log list. -/
structure WalkState where
  results : List DiffResult
  summary : DiffSummary
  logs : List String

/-- The per-result summary update performed inside the critical section. -/
def updateSummary (s : DiffSummary) (r : DiffResult) (size : ℤ) : DiffSummary :=
  { s with
    TotalFiles := s.TotalFiles + 1,
    AddedFiles := if r.Operation = "added" then s.AddedFiles + 1 else s.AddedFiles,
    ModifiedFiles := if r.Operation = "modified" then s.ModifiedFiles + 1 else s.ModifiedFiles,
    TotalSizeBytes := s.TotalSizeBytes + size,
    CompressedBytes :=
      if r.IsCompressed then
        s.CompressedBytes + ((r.Chunks.headD ⟨0, [], [], ""⟩).NewData.length : ℤ)
      else s.CompressedBytes,
    FileTypes := bumpFileType s.FileTypes r.FileType }

/-- One step of the new-tree walk callback: a walk error aborts (`Except`
error); directories, oversized files (logged) and ignored paths are skipped;
a per-file comparison error is logged and the file dropped; a produced result
is appended and aggregated. -/
def walkNewStep (e : DiffEngine) (env : Env) (oldDir : String) (st : WalkState) :
    WalkItem → Except String WalkState
  | .failure msg => .error msg
  | .entry path relPath isDir size modTime perm =>
    if isDir then .ok st
    else if e.config.MaxFileSizeBytes < size then
      .ok { st with logs := st.logs ++ ["Skipping large file: " ++ path] }
    else if e.config.IgnorePatterns.any (fun pat => env.matchGlob pat relPath) then
      .ok st
    else
      match e.compareFiles env (env.joinPath oldDir relPath) path size modTime perm with
      | .error msg =>
        .ok { st with logs := st.logs ++ ["Error comparing files " ++ relPath ++ ": " ++ msg] }
      | .ok none => .ok st
      | .ok (some r) =>
        .ok { st with
          results := st.results ++ [r],
          summary := updateSummary st.summary r size }

/-- The new-tree walk: process items in order, stopping at the first walk
error (which `filepath.Walk` returns to `CompareDirs`). -/
def walkNew (e : DiffEngine) (env : Env) (oldDir : String) :
    List WalkItem → WalkState → WalkState × Option String
  | [], st => (st, none)
  | it :: rest, st =>
    match walkNewStep e env oldDir st it with
    | .error msg => (st, some msg)
    | .ok st' => walkNew e env oldDir rest st'

/-- One step of the sequential old-tree walk: a walk error aborts; a path
absent from the new tree is reported `deleted` with the old hash, size and
modification time and counted in the summary. -/
def walkOldStep (env : Env) (newDir : String) (st : WalkState) :
    WalkItem → Except String WalkState
  | .failure msg => .error msg
  | .entry path relPath isDir size modTime _perm =>
    if isDir then .ok st
    else if env.statExists (env.joinPath newDir relPath) then .ok st
    else
      .ok { st with
        results := st.results ++
          [{ Path := relPath, Operation := "deleted", OldHash := env.hash path,
             NewHash := "", Chunks := [], FileType := "", Size := size,
             ModTime := modTime, Permissions := 0, IsCompressed := false }],
        summary := { st.summary with
          DeletedFiles := st.summary.DeletedFiles + 1,
          TotalFiles := st.summary.TotalFiles + 1 } }

/-- The old-tree walk fold. -/
def walkOld (env : Env) (newDir : String) :
    List WalkItem → WalkState → WalkState × Option String
  | [], st => (st, none)
  | it :: rest, st =>
    match walkOldStep env newDir st it with
    | .error msg => (st, some msg)
    | .ok st' => walkOld env newDir rest st'

/-- `CompareDirs` from utils.go over the two walk traces: a new-walk error
returns `(nil, nil, err)`; otherwise the old walk runs and its error (if any)
is returned alongside the accumulated summary and results.  The fourth
component is the ghost log. -/
def DiffEngine.CompareDirs (e : DiffEngine) (env : Env) (oldDir newDir : String)
    (newWalk oldWalk : List WalkItem) :
    Option DiffSummary × List DiffResult × Option String × List String :=
  let st0 : WalkState := { results := [], summary := emptySummary, logs := [] }
  match walkNew e env oldDir newWalk st0 with
  | (st1, some msg) => (none, [], some msg, st1.logs)
  | (st1, none) =>
    match walkOld env newDir oldWalk st1 with
    | (st2, some msg) => (some st2.summary, st2.results, some msg, st2.logs)
    | (st2, none) => (some st2.summary, st2.results, none, st2.logs)

/-- A file entry never aborts the new-tree walk: every error path inside the
per-file job is absorbed. -/
lemma walkNewStep_entry_ok (e : DiffEngine) (env : Env) (oldDir : String) (st : WalkState)
    (path relPath : String) (isDir : Bool) (size modTime : ℤ) (perm : ℕ) :
    ∃ st', walkNewStep e env oldDir st (.entry path relPath isDir size modTime perm) =
      .ok st' := by
  simp only [walkNewStep]
  split
  · exact ⟨st, rfl⟩
  · split
    · exact ⟨_, rfl⟩
    · split
      · exact ⟨_, rfl⟩
      · rcases hc : e.compareFiles env (env.joinPath oldDir relPath) path size modTime perm
          with msg | - | r <;> exact ⟨_, rfl⟩

/-- A file entry never aborts the old-tree walk. -/
lemma walkOldStep_entry_ok (env : Env) (newDir : String) (st : WalkState)
    (path relPath : String) (isDir : Bool) (size modTime : ℤ) (perm : ℕ) :
    ∃ st', walkOldStep env newDir st (.entry path relPath isDir size modTime perm) =
      .ok st' := by
  simp only [walkOldStep]
  split
  · exact ⟨st, rfl⟩
  · split
    · exact ⟨_, rfl⟩
    · exact ⟨_, rfl⟩

/-- A new-tree walk without enumeration errors completes without error. -/
lemma walkNew_ok (e : DiffEngine) (env : Env) (oldDir : String) :
    ∀ (items : List WalkItem) (st : WalkState),
      (∀ it ∈ items, it.isFailure = false) →
      (walkNew e env oldDir items st).2 = none := by
  intro items
  induction items with
  | nil => intro st _; rfl
  | cons it rest ih =>
    intro st h
    cases it with
    | failure msg => simpa [WalkItem.isFailure] using h _ (List.mem_cons_self _ _)
    | entry path relPath isDir size modTime perm =>
      obtain ⟨st', hst'⟩ := walkNewStep_entry_ok e env oldDir st path relPath isDir size
        modTime perm
      rw [walkNew, hst']
      exact ih st' (fun x hx => h x (List.mem_cons_of_mem _ hx))

/-- The new-tree walk aborts with the first enumeration error it meets. -/
lemma walkNew_failure (e : DiffEngine) (env : Env) (oldDir : String) :
    ∀ (pre : List WalkItem) (post : List WalkItem) (msg : String) (st : WalkState),
      (∀ it ∈ pre, it.isFailure = false) →
      (walkNew e env oldDir (pre ++ WalkItem.failure msg :: post) st).2 = some msg := by
  intro pre
  induction pre with
  | nil =>
    intro post msg st _
    rfl
  | cons it rest ih =>
    intro post msg st h
    cases it with
    | failure m => simpa [WalkItem.isFailure] using h _ (List.mem_cons_self _ _)
    | entry path relPath isDir size modTime perm =>
      obtain ⟨st', hst'⟩ := walkNewStep_entry_ok e env oldDir st path relPath isDir size
        modTime perm
      rw [List.cons_append, walkNew, hst']
      exact ih post msg st' (fun x hx => h x (List.mem_cons_of_mem _ hx))

/-- An old-tree walk without enumeration errors completes without error. -/
lemma walkOld_ok (env : Env) (newDir : String) :
    ∀ (items : List WalkItem) (st : WalkState),
      (∀ it ∈ items, it.isFailure = false) →
      (walkOld env newDir items st).2 = none := by
  intro items
  induction items with
  | nil => intro st _; rfl
  | cons it rest ih =>
    intro st h
    cases it with
    | failure msg => simpa [WalkItem.isFailure] using h _ (List.mem_cons_self _ _)
    | entry path relPath isDir size modTime perm =>
      obtain ⟨st', hst'⟩ := walkOldStep_entry_ok env newDir st path relPath isDir size
        modTime perm
      rw [walkOld, hst']
      exact ih st' (fun x hx => h x (List.mem_cons_of_mem _ hx))

/-- The old-tree walk aborts with the first enumeration error it meets. -/
lemma walkOld_failure (env : Env) (newDir : String) :
    ∀ (pre : List WalkItem) (post : List WalkItem) (msg : String) (st : WalkState),
      (∀ it ∈ pre, it.isFailure = false) →
      (walkOld env newDir (pre ++ WalkItem.failure msg :: post) st).2 = some msg := by
  intro pre
  induction pre with
  | nil =>
    intro post msg st _
    rfl
  | cons it rest ih =>
    intro post msg st h
    cases it with
    | failure m => simpa [WalkItem.isFailure] using h _ (List.mem_cons_self _ _)
    | entry path relPath isDir size modTime perm =>
      obtain ⟨st', hst'⟩ := walkOldStep_entry_ok env newDir st path relPath isDir size
        modTime perm
      rw [List.cons_append, walkOld, hst']
      exact ih post msg st' (fun x hx => h x (List.mem_cons_of_mem _ hx))

/-! ### Claim C4 -/

/-- C4: the orchestrator's failure policy.
(1) An error enumerating the new tree aborts the run: `CompareDirs` returns
no summary, no results and that error.
(2) An error enumerating the old tree is likewise returned to the caller.
(3) With error-free walks the run returns no error and a summary, regardless
of how many per-file comparisons fail.
(4) A per-file comparison error only appends a log line: the results, the
summary and the run state are otherwise unchanged, and the walk continues. -/
theorem compareDirs_error_policy (e : DiffEngine) (env : Env) (oldDir newDir : String) :
    (∀ (pre post oldWalk : List WalkItem) (msg : String),
      (∀ it ∈ pre, it.isFailure = false) →
      (e.CompareDirs env oldDir newDir (pre ++ WalkItem.failure msg :: post) oldWalk).1 =
          none ∧
        (e.CompareDirs env oldDir newDir (pre ++ WalkItem.failure msg :: post) oldWalk).2.1 =
          [] ∧
        (e.CompareDirs env oldDir newDir
            (pre ++ WalkItem.failure msg :: post) oldWalk).2.2.1 = some msg) ∧
    (∀ (newWalk pre post : List WalkItem) (msg : String),
      (∀ it ∈ newWalk, it.isFailure = false) →
      (∀ it ∈ pre, it.isFailure = false) →
      (e.CompareDirs env oldDir newDir newWalk
          (pre ++ WalkItem.failure msg :: post)).2.2.1 = some msg) ∧
    (∀ (newWalk oldWalk : List WalkItem),
      (∀ it ∈ newWalk, it.isFailure = false) →
      (∀ it ∈ oldWalk, it.isFailure = false) →
      (e.CompareDirs env oldDir newDir newWalk oldWalk).2.2.1 = none ∧
        (e.CompareDirs env oldDir newDir newWalk oldWalk).1 ≠ none) ∧
    (∀ (st : WalkState) (path relPath : String) (size modTime : ℤ) (perm : ℕ) (msg : String),
      e.compareFiles env (env.joinPath oldDir relPath) path size modTime perm = .error msg →
      ¬ e.config.MaxFileSizeBytes < size →
      ¬ (e.config.IgnorePatterns.any (fun pat => env.matchGlob pat relPath)) = true →
      walkNewStep e env oldDir st (.entry path relPath false size modTime perm) =
        .ok { st with
          logs := st.logs ++ ["Error comparing files " ++ relPath ++ ": " ++ msg] }) := by
  refine ⟨?_, ?_, ?_, ?_⟩
  · intro pre post oldWalk msg hpre
    have hfail := walkNew_failure e env oldDir pre post msg ⟨[], emptySummary, []⟩ hpre
    unfold DiffEngine.CompareDirs
    dsimp only
    rcases hw : walkNew e env oldDir (pre ++ WalkItem.failure msg :: post)
        ⟨[], emptySummary, []⟩ with ⟨st1, err⟩
    rw [hw] at hfail
    dsimp only at hfail
    subst hfail
    exact ⟨rfl, rfl, rfl⟩
  · intro newWalk pre post msg hnew hpre
    have hok := walkNew_ok e env oldDir newWalk ⟨[], emptySummary, []⟩ hnew
    unfold DiffEngine.CompareDirs
    dsimp only
    rcases hw : walkNew e env oldDir newWalk ⟨[], emptySummary, []⟩ with ⟨st1, err⟩
    rw [hw] at hok
    dsimp only at hok
    subst hok
    dsimp only
    have hfail := walkOld_failure env newDir pre post msg st1 hpre
    rcases hw2 : walkOld env newDir (pre ++ WalkItem.failure msg :: post) st1 with ⟨st2, err2⟩
    rw [hw2] at hfail
    dsimp only at hfail
    subst hfail
    rfl
  · intro newWalk oldWalk hnew hold
    have hok := walkNew_ok e env oldDir newWalk ⟨[], emptySummary, []⟩ hnew
    unfold DiffEngine.CompareDirs
    dsimp only
    rcases hw : walkNew e env oldDir newWalk ⟨[], emptySummary, []⟩ with ⟨st1, err⟩
    rw [hw] at hok
    dsimp only at hok
    subst hok
    dsimp only
    have hok2 := walkOld_ok env newDir oldWalk st1 hold
    rcases hw2 : walkOld env newDir oldWalk st1 with ⟨st2, err2⟩
    rw [hw2] at hok2
    dsimp only at hok2
    subst hok2
    exact ⟨rfl, by simp⟩
  · intro st path relPath size modTime perm msg hcmp hsize hign
    simp only [walkNewStep]
    rw [if_neg (by simp), if_neg hsize, if_neg hign, hcmp]

/-- A handler whose comparison always fails, exercising the per-file error
path. -/
def failingHandler : FileHandlerI :=
  { Compare := fun _ _ => .error "boom", GetFileType := "binary" }

/-- A minimal configuration for the C4 witness. -/
def witnessConfig : Configuration :=
  { CompressPatches := false, CompressionLevel := 0, ChunkSize := 0, Concurrency := 1,
    IgnorePatterns := [], IncludePatterns := [], PreservePermissions := false,
    MaxFileSizeBytes := 100, BackupFiles := false, BackupDir := "",
    DetailedLogging := false }

/-- An engine whose only handler always fails to compare. -/
def witnessEngine : DiffEngine :=
  { handlers := [], defaultHandler := failingHandler, config := witnessConfig }

/-- A tiny filesystem: the new file `n/a` holds `[1]`, everything else `[0]`. -/
def witnessEnv : Env :=
  { readFile := fun p => if p = "n/a" then .ok [1] else .ok [0],
    hash := fun _ => "h", compress := fun d _ _ => d,
    statExists := fun _ => false, ext := fun _ => "", base := fun s => s,
    joinPath := fun a b => a ++ "/" ++ b, matchGlob := fun _ _ => false }

/-- Witness for C4 at concrete inputs: a walk error aborts with that error;
a run whose only file fails to compare still returns without error; and the
failing file's step only appends a log line. -/
theorem compareDirs_error_policy_witness :
    (witnessEngine.CompareDirs witnessEnv "o" "n" [WalkItem.failure "walkfail"] []).2.2.1 =
        some "walkfail" ∧
      (witnessEngine.CompareDirs witnessEnv "o" "n"
          [WalkItem.entry "n/a" "a" false 1 0 0] []).2.2.1 = none ∧
      walkNewStep witnessEngine witnessEnv "o" ⟨[], emptySummary, []⟩
          (.entry "n/a" "a" false 1 0 0) =
        .ok ⟨[], emptySummary, ["Error comparing files " ++ "a" ++ ": " ++ "boom"]⟩ :=
  ⟨((compareDirs_error_policy witnessEngine witnessEnv "o" "n").1 [] [] [] "walkfail"
      (by simp)).2.2,
    ((compareDirs_error_policy witnessEngine witnessEnv "o" "n").2.2.1
      [WalkItem.entry "n/a" "a" false 1 0 0] []
      (by intro it hit; obtain rfl := List.mem_singleton.1 hit; rfl)
      (by simp)).1,
    (compareDirs_error_policy witnessEngine witnessEnv "o" "n").2.2.2
      ⟨[], emptySummary, []⟩ "n/a" "a" 1 0 0 "boom" rfl (by decide) (by decide)⟩

end Diff
